import Mathlib

/-!
Shallow embedding of `src/main.rs` (camelol): a 24-state space of musical
scales, a 10-rule transition catalog, the graph built from them, and the
multi-path search loop (`multi_path_dijkstra`).

Modelling conventions:
* Rust `usize` becomes `Nat`, `isize`/`i32` become `Int`.  Rust's `%` on
  `isize` is truncated remainder, i.e. `Int.tmod`.
* petgraph `Graph<Scale, ScaleTransition>` becomes a list of node weights
  (positions are the `NodeIndex`es, in insertion order) plus a list of
  directed labelled edges `(source, target, label)` in insertion order.
  `graph.edges(a)` iterates the out-edges of `a` newest-first, hence the
  `reverse` in `edgesFrom`.
* The `BinaryHeap<Path>` orders candidates by `cost` alone (the reversed
  `Ord for Path` makes it a min-heap); which equal-cost candidate `pop`
  returns is unspecified by the API.  The frontier is modelled as a list
  whose `popMin` removes the first candidate of minimum cost; the theorems
  below do not depend on the tie order.
* The Rust `while let` loop can run forever (the graph is cyclic), so the
  loop takes explicit fuel, one unit per iteration, and returns the results
  accumulated so far when fuel runs out; any terminating Rust run is a run
  with enough fuel.
-/

namespace Camelol

inductive ScaleKind : Type where
  | Major : ScaleKind
  | Minor : ScaleKind
deriving DecidableEq

def ScaleKind.swap : ScaleKind → ScaleKind
  | ScaleKind.Minor => ScaleKind.Major
  | ScaleKind.Major => ScaleKind.Minor

/-- The `Display for ScaleKind` impl: Minor renders as "A", Major as "B". -/
def ScaleKind.display : ScaleKind → String
  | ScaleKind.Minor => "A"
  | ScaleKind.Major => "B"

structure Scale : Type where
  index : Nat
  kind : ScaleKind
deriving DecidableEq

/-- The Rust `fn mod_cyclic(num: isize, modulus: usize) -> isize`.
Rust `%` on `isize` truncates toward zero, i.e. `Int.tmod`. -/
def mod_cyclic (num : Int) (modulus : Nat) : Int :=
  let m : Int := (modulus : Int)
  ((num.tmod m) + m).tmod m

def Scale.swap_kind (s : Scale) : Scale :=
  { s with kind := s.kind.swap }

/-- The method `Scale::change_index`: the result of `mod_cyclic _ 12` is nonnegative,
so the Rust `as usize` cast is `Int.toNat`. -/
def Scale.change_index (s : Scale) (amount : Int) : Scale :=
  { s with index := (mod_cyclic ((s.index : Int) + amount) 12).toNat }

def scale (index : Nat) (kind : ScaleKind) : Scale :=
  { index := index, kind := kind }

/-- The function `make_nodes`: `(0..=11).flat_map(|i| [scale(i, Minor), scale(i, Major)])`. -/
def make_nodes : List Scale :=
  (List.range 12).flatMap fun i => [scale i ScaleKind.Minor, scale i ScaleKind.Major]

inductive ScaleTransition : Type where
  | Vertical : ScaleTransition
  | Diagonal : ScaleTransition
  | ChangeIndex : Int → ScaleTransition
  | MajorToMinor : ScaleTransition
  | FlatToMinor : ScaleTransition
deriving DecidableEq

def possible_transitions : List ScaleTransition :=
  [ScaleTransition.Vertical,
   ScaleTransition.Diagonal,
   ScaleTransition.MajorToMinor,
   ScaleTransition.FlatToMinor,
   ScaleTransition.ChangeIndex 1,
   ScaleTransition.ChangeIndex 2,
   ScaleTransition.ChangeIndex 7,
   ScaleTransition.ChangeIndex (-1),
   ScaleTransition.ChangeIndex (-2),
   ScaleTransition.ChangeIndex (-7)]

/-- The function `make_transition`: the Rust match guards on `scale.kind`, a two-variant
enum, so the guarded arms are exhaustive and the `_ => unreachable!()` arm
is dead; `make_transitionChecked` below keeps that arm as `none` and is
proven to never return it. -/
def make_transition (s : Scale) (t : ScaleTransition) : Scale :=
  match t with
  | ScaleTransition.Vertical => s.swap_kind
  | ScaleTransition.ChangeIndex amount => s.change_index amount
  | ScaleTransition.Diagonal =>
    match s.kind with
    | ScaleKind.Major => (s.swap_kind).change_index 1
    | ScaleKind.Minor => (s.swap_kind).change_index (-1)
  | ScaleTransition.FlatToMinor =>
    match s.kind with
    | ScaleKind.Minor => (s.swap_kind).change_index (-4)
    | ScaleKind.Major => (s.swap_kind).change_index 4
  | ScaleTransition.MajorToMinor =>
    match s.kind with
    | ScaleKind.Minor => (s.swap_kind).change_index 3
    | ScaleKind.Major => (s.swap_kind).change_index (-3)

/-- Variant of `make_transition` with the Rust guard structure kept literally:
each guarded arm is an `if` on the kind, and the final
`_ => unreachable!()` arm is `none`. -/
def make_transitionChecked (s : Scale) (t : ScaleTransition) : Option Scale :=
  match t with
  | ScaleTransition.Vertical => some s.swap_kind
  | ScaleTransition.ChangeIndex amount => some (s.change_index amount)
  | ScaleTransition.Diagonal =>
    if s.kind = ScaleKind.Major then some ((s.swap_kind).change_index 1)
    else if s.kind = ScaleKind.Minor then some ((s.swap_kind).change_index (-1))
    else none
  | ScaleTransition.FlatToMinor =>
    if s.kind = ScaleKind.Minor then some ((s.swap_kind).change_index (-4))
    else if s.kind = ScaleKind.Major then some ((s.swap_kind).change_index 4)
    else none
  | ScaleTransition.MajorToMinor =>
    if s.kind = ScaleKind.Minor then some ((s.swap_kind).change_index 3)
    else if s.kind = ScaleKind.Major then some ((s.swap_kind).change_index (-3))
    else none

/-- The graph of `main`: node weights in insertion order (the position in
the list is the petgraph `NodeIndex`) and labelled edges in insertion
order. -/
structure Graph : Type where
  nodes : List Scale
  edges : List (Nat × Nat × ScaleTransition)
deriving DecidableEq

/-- The `scale_to_index` map of `main`: `make_nodes` is duplicate-free, so
the `HashMap` built from `add_node` returns the position of the scale in
`make_nodes`. -/
def scale_to_index (s : Scale) : Option Nat :=
  make_nodes.findIdx? fun x => x == s

/-- The edge list built by the nested loops of `main`, with the two
`scale_to_index.get(..).unwrap()` calls replaced by a default (the theorem
for C8 shows via `build_edges_checked` that the default is never used). -/
def buildEdges : List (Nat × Nat × ScaleTransition) :=
  make_nodes.flatMap fun s =>
    possible_transitions.map fun t =>
      ((scale_to_index s).getD 0, (scale_to_index (make_transition s t)).getD 0, t)

/-- The nested edge-building loops of `main` with every fallible step kept
fallible: `scale_to_index` lookups (`unwrap`) and the `unreachable!()` arm
of `make_transition` all propagate `none`. -/
def build_edges_checked : Option (List (Nat × Nat × ScaleTransition)) :=
  make_nodes.foldlM
    (fun acc s =>
      (scale_to_index s).bind fun si =>
        possible_transitions.foldlM
          (fun acc2 t =>
            (make_transitionChecked s t).bind fun target =>
              (scale_to_index target).bind fun ti =>
                some (acc2 ++ [(si, ti, t)]))
          acc)
    []

/-- The graph built in `main` from the 24 states and the 10 rules. -/
def build_graph : Graph :=
  { nodes := make_nodes, edges := buildEdges }

/-- The iterator `graph.edges(a)`: the out-edges of `a`, as (target, label) pairs.
petgraph iterates the out-edges of a node newest-first, hence the
`reverse` of insertion order. -/
def edgesFrom (g : Graph) (a : Nat) : List (Nat × ScaleTransition) :=
  ((g.edges.filter fun e => e.1 == a).reverse).map fun e => (e.2.1, e.2.2)

/-- Out-degree of node `a`. -/
def outDegree (g : Graph) (a : Nat) : Nat :=
  (g.edges.filter fun e => e.1 == a).length

/-- The `struct Path` of the search engine.  `cost` is an `i32` in Rust;
the runs considered never approach `2^31`, so it is modelled as `Int`. -/
structure Path : Type where
  cost : Int
  node : Nat
  transition : Option ScaleTransition
  path : List Nat
  transition_path : List ScaleTransition
deriving DecidableEq

/-- Modelled `BinaryHeap::pop` through the reversed `Ord for Path`, which compares
`cost` only: remove a candidate of minimum cost (the first such, fixing
the tie order the API leaves unspecified). -/
def popMin : List Path → Option (Path × List Path)
  | [] => none
  | p :: rest =>
    match popMin rest with
    | none => some (p, [])
    | some (q, rest') => if p.cost ≤ q.cost then some (p, rest) else some (q, p :: rest')

/-- The two pushes at the top of the loop body:
`path.path.push(path.node)` and, when a pending transition is carried,
`path.transition_path.push(transition)`. -/
def settle (p : Path) : Path :=
  { p with path := p.path ++ [p.node],
           transition_path := p.transition_path ++ p.transition.toList }

/-- The `for edge in graph.edges(path.node)` push loop: one successor
candidate per out-edge, with cost `+1`, the edge's target as current node,
the edge's label pending, and the (settled) histories cloned. -/
def expand (g : Graph) (p : Path) : List Path :=
  (edgesFrom g p.node).map fun e =>
    { cost := p.cost + 1, node := e.1, transition := some e.2,
      path := p.path, transition_path := p.transition_path }

/-- The zero-cost candidate at `source` pushed before the loop starts. -/
def seedPath (source : Nat) : Path :=
  { cost := 0, node := source, transition := none, path := [], transition_path := [] }

/-- The `while let Some(mut path) = min_heap.pop()` loop of
`multi_path_dijkstra`, with one unit of fuel per iteration. -/
def searchLoop (g : Graph) (target : Nat) (n : Nat) :
    Nat → List Path → List Path → List Path
  | 0, _, paths => paths
  | fuel + 1, heap, paths =>
    match popMin heap with
    | none => paths
    | some (p, heap') =>
      let q := settle p
      if q.node = target then
        let paths' := paths ++ [q]
        if n ≤ paths'.length then paths'
        else searchLoop g target n fuel (heap' ++ expand g q) paths'
      else searchLoop g target n fuel (heap' ++ expand g q) paths

/-- The function `multi_path_dijkstra`: seed the heap with the zero-cost candidate at
`source` and run the loop. -/
def multi_path_dijkstra (g : Graph) (source target : Nat) (n : Nat)
    (fuel : Nat) : List Path :=
  searchLoop g target n fuel [seedPath source] []

/-- Walk predicate `isChain g a rest ts`: starting at node `a`, the nodes of `rest` are
reached in order by edges of `g` carrying the labels of `ts`; in
particular `rest` and `ts` have the same length. -/
def isChain (g : Graph) : Nat → List Nat → List ScaleTransition → Bool
  | _, [], [] => true
  | a, b :: rest, t :: ts => decide ((a, b, t) ∈ g.edges) && isChain g b rest ts
  | _, _, _ => false

/-- Invariant of a settled (just-popped) candidate: its recorded node
history is a labelled walk of `g` from `source` ending at its current
node, and its cost counts its transitions. -/
def PoppedWF (g : Graph) (source : Nat) (p : Path) : Prop :=
  ∃ rest, p.path = source :: rest ∧ p.path.getLast? = some p.node ∧
    isChain g source rest p.transition_path = true ∧
    p.cost = (p.transition_path.length : Int)

/-- Invariant of a candidate sitting in the frontier: either the seed, or
a candidate whose history plus pending transition forms a labelled walk of
`g` from `source` to its current node. -/
def CandWF (g : Graph) (source : Nat) (p : Path) : Prop :=
  (p.transition = none ∧ p.path = [] ∧ p.transition_path = [] ∧
    p.node = source ∧ p.cost = 0)
  ∨ (∃ t, p.transition = some t ∧ ∃ rest, p.path = source :: rest ∧
      isChain g source (rest ++ [p.node]) (p.transition_path ++ [t]) = true ∧
      p.cost = (p.transition_path.length : Int) + 1)

set_option maxRecDepth 100000

/-! Arithmetic helpers for `mod_cyclic`. -/

theorem tmod_neg_left (a b : Int) : (-a).tmod b = -(a.tmod b) := by
  simp only [Int.tmod_def, Int.neg_tdiv]
  ring

theorem mod_cyclic_twelve (x : Int) : mod_cyclic x 12 = x % 12 := by
  show ((x.tmod ((12 : Nat) : Int)) + ((12 : Nat) : Int)).tmod ((12 : Nat) : Int) = x % 12
  norm_num
  rcases le_or_lt 0 x with hx | hx
  · have h1 : x.tmod 12 = x % 12 := Int.tmod_eq_emod hx (by norm_num)
    have h2 : (0 : Int) ≤ x % 12 := Int.emod_nonneg x (by norm_num)
    have h3 : x % 12 < 12 := Int.emod_lt_of_pos x (by norm_num)
    rw [h1, Int.tmod_eq_emod (by omega) (by norm_num)]
    omega
  · have h1 : x.tmod 12 = -((-x).tmod 12) := by
      conv_lhs => rw [show x = -(-x) by ring]
      rw [tmod_neg_left]
    have h2 : (-x).tmod 12 = (-x) % 12 := Int.tmod_eq_emod (by omega) (by norm_num)
    have h3 : (0 : Int) ≤ (-x) % 12 := Int.emod_nonneg _ (by norm_num)
    have h4 : (-x) % 12 < 12 := Int.emod_lt_of_pos _ (by norm_num)
    rw [h1, h2, Int.tmod_eq_emod (by omega) (by norm_num)]
    omega

theorem mod_cyclic_nonneg_lt (x : Int) : 0 ≤ mod_cyclic x 12 ∧ mod_cyclic x 12 < 12 := by
  rw [mod_cyclic_twelve]
  exact ⟨Int.emod_nonneg x (by norm_num), Int.emod_lt_of_pos x (by norm_num)⟩

/-! Facts about `popMin`: it returns a member of the frontier, its
remainder is made of members of the frontier, and the returned candidate
has minimum cost. -/

theorem popMin_mem : ∀ {l : List Path} {p : Path} {l' : List Path},
    popMin l = some (p, l') → p ∈ l := by
  intro l
  induction l with
  | nil => intro p l' h; simp [popMin] at h
  | cons a rest ih =>
    intro p l' h
    rw [popMin] at h
    split at h
    · simp only [Option.some.injEq, Prod.mk.injEq] at h
      simp [h.1]
    · rename_i q rest' hrec
      split at h
      · simp only [Option.some.injEq, Prod.mk.injEq] at h
        simp [h.1]
      · simp only [Option.some.injEq, Prod.mk.injEq] at h
        have hq : q ∈ rest := ih hrec
        exact List.mem_cons_of_mem a (h.1 ▸ hq)

theorem popMin_rest_mem : ∀ {l : List Path} {p : Path} {l' : List Path},
    popMin l = some (p, l') → ∀ q ∈ l', q ∈ l := by
  intro l
  induction l with
  | nil => intro p l' h; simp [popMin] at h
  | cons a rest ih =>
    intro p l' h
    rw [popMin] at h
    split at h
    · simp only [Option.some.injEq, Prod.mk.injEq] at h
      rw [← h.2]
      intro q hq
      simp at hq
    · rename_i q0 rest' hrec
      split at h
      · simp only [Option.some.injEq, Prod.mk.injEq] at h
        rw [← h.2]
        intro q hq
        simp [hq]
      · simp only [Option.some.injEq, Prod.mk.injEq] at h
        rw [← h.2]
        intro q hq
        rcases List.mem_cons.1 hq with hqa | hq'
        · simp [hqa]
        · exact List.mem_cons_of_mem a (ih hrec q hq')

theorem popMin_none : ∀ {l : List Path}, popMin l = none → l = [] := by
  intro l h
  cases l with
  | nil => rfl
  | cons a rest =>
    exfalso
    rw [popMin] at h
    split at h
    · simp at h
    · split at h <;> simp at h

theorem popMin_le : ∀ {l : List Path} {p : Path} {l' : List Path},
    popMin l = some (p, l') → ∀ q ∈ l, p.cost ≤ q.cost := by
  intro l
  induction l with
  | nil => intro p l' h; simp [popMin] at h
  | cons a rest ih =>
    intro p l' h
    rw [popMin] at h
    split at h
    · rename_i hrec
      have hrest : rest = [] := popMin_none hrec
      simp only [Option.some.injEq, Prod.mk.injEq] at h
      subst hrest
      intro q hq
      simp at hq
      simp [hq, ← h.1]
    · rename_i q0 rest' hrec
      split at h
      · rename_i hc
        simp only [Option.some.injEq, Prod.mk.injEq] at h
        intro q hq
        rw [← h.1]
        rcases List.mem_cons.1 hq with hqa | hq'
        · simp [hqa]
        · exact le_trans hc (ih hrec q hq')
      · rename_i hc
        simp only [Option.some.injEq, Prod.mk.injEq] at h
        intro q hq
        rw [← h.1]
        rcases List.mem_cons.1 hq with hqa | hq'
        · rw [hqa]; omega
        · exact ih hrec q hq'

/-! Structural facts about the search loop, starting with the four
one-step unfolding equations of `searchLoop`. -/

theorem searchLoop_step_empty (g : Graph) (target n f : Nat)
    (heap paths : List Path) (hpop : popMin heap = none) :
    searchLoop g target n (f + 1) heap paths = paths := by
  simp [searchLoop, hpop]

theorem searchLoop_step_emit_stop (g : Graph) (target n f : Nat)
    (heap heap' paths : List Path) (p : Path)
    (hpop : popMin heap = some (p, heap')) (ht : (settle p).node = target)
    (hn : n ≤ paths.length + 1) :
    searchLoop g target n (f + 1) heap paths = paths ++ [settle p] := by
  simp [searchLoop, hpop, ht, hn]

theorem searchLoop_step_emit_go (g : Graph) (target n f : Nat)
    (heap heap' paths : List Path) (p : Path)
    (hpop : popMin heap = some (p, heap')) (ht : (settle p).node = target)
    (hn : ¬n ≤ paths.length + 1) :
    searchLoop g target n (f + 1) heap paths =
      searchLoop g target n f (heap' ++ expand g (settle p)) (paths ++ [settle p]) := by
  simp [searchLoop, hpop, ht, hn]

theorem searchLoop_step_pass (g : Graph) (target n f : Nat)
    (heap heap' paths : List Path) (p : Path)
    (hpop : popMin heap = some (p, heap')) (ht : ¬(settle p).node = target) :
    searchLoop g target n (f + 1) heap paths =
      searchLoop g target n f (heap' ++ expand g (settle p)) paths := by
  simp [searchLoop, hpop, ht]

/-- The loop only ever appends to the accumulator of emitted results. -/
theorem searchLoop_acc (g : Graph) (target n : Nat) :
    ∀ fuel heap paths, ∃ rest, searchLoop g target n fuel heap paths = paths ++ rest := by
  intro fuel
  induction fuel with
  | zero => intro heap paths; exact ⟨[], by simp [searchLoop]⟩
  | succ f ih =>
    intro heap paths
    cases hpop : popMin heap with
    | none => exact ⟨[], by simp [searchLoop, hpop]⟩
    | some pr =>
      obtain ⟨p, heap'⟩ := pr
      by_cases ht : (settle p).node = target
      · by_cases hn : n ≤ paths.length + 1
        · exact ⟨[settle p], searchLoop_step_emit_stop g target n f heap heap' paths p hpop ht hn⟩
        · obtain ⟨rest, hrest⟩ := ih (heap' ++ expand g (settle p)) (paths ++ [settle p])
          refine ⟨[settle p] ++ rest, ?_⟩
          rw [searchLoop_step_emit_go g target n f heap heap' paths p hpop ht hn, hrest]
          simp
      · obtain ⟨rest, hrest⟩ := ih (heap' ++ expand g (settle p)) paths
        exact ⟨rest, by rw [searchLoop_step_pass g target n f heap heap' paths p hpop ht, hrest]⟩

/-- Requesting `n = 0` takes the same path through the loop as `n = 1`: the result
count is only checked right after an emission, when it is at least 1. -/
theorem searchLoop_zero_one (g : Graph) (target : Nat) :
    ∀ fuel heap paths,
      searchLoop g target 0 fuel heap paths = searchLoop g target 1 fuel heap paths := by
  intro fuel
  induction fuel with
  | zero => intro heap paths; simp [searchLoop]
  | succ f ih =>
    intro heap paths
    cases hpop : popMin heap with
    | none => simp [searchLoop, hpop]
    | some pr =>
      obtain ⟨p, heap'⟩ := pr
      by_cases ht : (settle p).node = target
      · have h0 : (0 : Nat) ≤ paths.length + 1 := Nat.zero_le _
        have h1 : (1 : Nat) ≤ paths.length + 1 := by omega
        rw [searchLoop_step_emit_stop g target 0 f heap heap' paths p hpop ht h0,
            searchLoop_step_emit_stop g target 1 f heap heap' paths p hpop ht h1]
      · rw [searchLoop_step_pass g target 0 f heap heap' paths p hpop ht,
            searchLoop_step_pass g target 1 f heap heap' paths p hpop ht]
        exact ih _ _

/-- Sortedness invariant: if the emitted results are sorted by cost and
no frontier candidate is cheaper than an emitted result, the loop's
output is sorted by cost. -/
theorem searchLoop_sorted (g : Graph) (target n : Nat) :
    ∀ fuel heap paths,
      paths.Pairwise (fun a b => a.cost ≤ b.cost) →
      (∀ r ∈ paths, ∀ q ∈ heap, r.cost ≤ q.cost) →
      (searchLoop g target n fuel heap paths).Pairwise (fun a b => a.cost ≤ b.cost) := by
  intro fuel
  induction fuel with
  | zero => intro heap paths h1 h2; simpa [searchLoop] using h1
  | succ f ih =>
    intro heap paths h1 h2
    cases hpop : popMin heap with
    | none => simpa [searchLoop, hpop] using h1
    | some pr =>
      obtain ⟨p, heap'⟩ := pr
      have hpmem : p ∈ heap := popMin_mem hpop
      have hsc : (settle p).cost = p.cost := rfl
      have h1' : (paths ++ [settle p]).Pairwise (fun a b => a.cost ≤ b.cost) := by
        rw [List.pairwise_append]
        refine ⟨h1, List.pairwise_singleton _ _, ?_⟩
        intro a ha b hb
        simp only [List.mem_singleton] at hb
        subst hb
        rw [hsc]
        exact h2 a ha p hpmem
      have h2' : ∀ r ∈ paths ++ [settle p], ∀ s ∈ heap' ++ expand g (settle p),
          r.cost ≤ s.cost := by
        intro r hr s hs
        have hrp : r.cost ≤ p.cost := by
          rcases List.mem_append.1 hr with hh | hh
          · exact h2 r hh p hpmem
          · simp only [List.mem_singleton] at hh
            subst hh
            rw [hsc]
        rcases List.mem_append.1 hs with hh | hh
        · exact le_trans hrp (popMin_le hpop s (popMin_rest_mem hpop s hh))
        · obtain ⟨e, _, rfl⟩ := List.mem_map.1 hh
          show r.cost ≤ (settle p).cost + 1
          rw [hsc]
          omega
      have h2'' : ∀ r ∈ paths, ∀ s ∈ heap' ++ expand g (settle p), r.cost ≤ s.cost := by
        intro r hr
        exact h2' r (List.mem_append_left _ hr)
      by_cases ht : (settle p).node = target
      · by_cases hn : n ≤ paths.length + 1
        · rw [searchLoop_step_emit_stop g target n f heap heap' paths p hpop ht hn]
          exact h1'
        · rw [searchLoop_step_emit_go g target n f heap heap' paths p hpop ht hn]
          exact ih (heap' ++ expand g (settle p)) (paths ++ [settle p]) h1' h2'
      · rw [searchLoop_step_pass g target n f heap heap' paths p hpop ht]
        exact ih (heap' ++ expand g (settle p)) paths h1 h2''

/-! Labelled walks: properties of `isChain`, and the candidate invariant
carried through the loop. -/

theorem isChain_length (g : Graph) :
    ∀ rest ts a, isChain g a rest ts = true → rest.length = ts.length := by
  intro rest
  induction rest with
  | nil =>
    intro ts a h
    cases ts with
    | nil => rfl
    | cons t ts' => simp [isChain] at h
  | cons b rest' ih =>
    intro ts a h
    cases ts with
    | nil => simp [isChain] at h
    | cons t ts' =>
      rw [isChain, Bool.and_eq_true] at h
      simp [ih ts' b h.2]

theorem isChain_extend (g : Graph) :
    ∀ rest ts a c b t, isChain g a rest ts = true →
      (a :: rest).getLast? = some c → (c, b, t) ∈ g.edges →
      isChain g a (rest ++ [b]) (ts ++ [t]) = true := by
  intro rest
  induction rest with
  | nil =>
    intro ts a c b t hch hlast hedge
    cases ts with
    | cons u us => simp [isChain] at hch
    | nil =>
      simp only [List.getLast?_singleton, Option.some.injEq] at hlast
      subst hlast
      simp [isChain, hedge]
  | cons x rest' ih =>
    intro ts a c b t hch hlast hedge
    cases ts with
    | nil => simp [isChain] at hch
    | cons u us =>
      rw [isChain, Bool.and_eq_true] at hch
      have hlast' : (x :: rest').getLast? = some c := by
        rw [List.getLast?_cons_cons] at hlast
        exact hlast
      have := ih us x c b t hch.2 hlast' hedge
      show (decide ((a, x, u) ∈ g.edges) && isChain g x (rest' ++ [b]) (us ++ [t])) = true
      rw [Bool.and_eq_true]
      exact ⟨hch.1, this⟩

theorem isChain_getD (g : Graph) :
    ∀ rest ts a, isChain g a rest ts = true →
      ∀ i, i < ts.length →
        ((a :: rest).getD i 0, (a :: rest).getD (i + 1) 0,
          ts.getD i ScaleTransition.Vertical) ∈ g.edges := by
  intro rest
  induction rest with
  | nil =>
    intro ts a h i hi
    cases ts with
    | nil => simp at hi
    | cons t ts' => simp [isChain] at h
  | cons b rest' ih =>
    intro ts a h i hi
    cases ts with
    | nil => simp [isChain] at h
    | cons t ts' =>
      rw [isChain, Bool.and_eq_true, decide_eq_true_eq] at h
      cases i with
      | zero => simpa using h.1
      | succ j =>
        have hj : j < ts'.length := by simpa using hi
        have := ih ts' b h.2 j hj
        simpa using this

/-- Every out-edge reported by `edgesFrom g a` is an edge of `g` out of `a`. -/
theorem edgesFrom_mem (g : Graph) (a : Nat) :
    ∀ e ∈ edgesFrom g a, (a, e.1, e.2) ∈ g.edges := by
  intro e he
  unfold edgesFrom at he
  obtain ⟨x, hx, rfl⟩ := List.mem_map.1 he
  rw [List.mem_reverse, List.mem_filter] at hx
  have hxa : x.1 = a := by simpa using hx.2
  have : x = (a, x.2.1, x.2.2) := by
    rw [← hxa]
  exact this ▸ hx.1

/-- Settling a well-formed frontier candidate yields a well-formed
popped record. -/
theorem settle_wf {g : Graph} {source : Nat} {p : Path} (h : CandWF g source p) :
    PoppedWF g source (settle p) := by
  rcases h with ⟨ht, hp, htp, hn, hc⟩ | ⟨t, ht, rest, hp, hchain, hc⟩
  · refine ⟨[], ?_, ?_, ?_, ?_⟩
    · simp [settle, hp, hn]
    · simp [settle, hp]
    · simp [settle, ht, htp, isChain]
    · simp [settle, ht, htp, hc]
  · refine ⟨rest ++ [p.node], ?_, ?_, ?_, ?_⟩
    · simp [settle, hp]
    · simp [settle, List.getLast?_concat]
    · simpa [settle, hp, ht] using hchain
    · simp [settle, ht, hc]

/-- Every successor pushed for a well-formed popped record is a
well-formed frontier candidate. -/
theorem expand_wf {g : Graph} {source : Nat} {q : Path} (h : PoppedWF g source q) :
    ∀ c ∈ expand g q, CandWF g source c := by
  obtain ⟨rest, hp, hlast, hchain, hc⟩ := h
  intro c hcm
  obtain ⟨e, he, rfl⟩ := List.mem_map.1 hcm
  have hedge : (q.node, e.1, e.2) ∈ g.edges := edgesFrom_mem g q.node e he
  refine Or.inr ⟨e.2, rfl, rest, ?_, ?_, ?_⟩
  · simpa using hp
  · show isChain g source (rest ++ [e.1]) (q.transition_path ++ [e.2]) = true
    refine isChain_extend g rest q.transition_path source q.node e.1 e.2 hchain ?_ hedge
    rw [← hp]
    exact hlast
  · show q.cost + 1 = (q.transition_path.length : Int) + 1
    rw [hc]

/-- The loop invariant: all frontier candidates well-formed and all
emitted results well-formed arrivals at `target` implies every result in
the loop's output is a well-formed arrival at `target`. -/
theorem searchLoop_wf (g : Graph) (source target n : Nat) :
    ∀ fuel heap paths,
      (∀ c ∈ heap, CandWF g source c) →
      (∀ r ∈ paths, PoppedWF g source r ∧ r.node = target) →
      ∀ r ∈ searchLoop g target n fuel heap paths,
        PoppedWF g source r ∧ r.node = target := by
  intro fuel
  induction fuel with
  | zero => intro heap paths _ h2; simpa [searchLoop] using h2
  | succ f ih =>
    intro heap paths h1 h2
    cases hpop : popMin heap with
    | none =>
      rw [searchLoop_step_empty g target n f heap paths hpop]
      exact h2
    | some pr =>
      obtain ⟨p, heap'⟩ := pr
      have hq : PoppedWF g source (settle p) := settle_wf (h1 p (popMin_mem hpop))
      have h1' : ∀ c ∈ heap' ++ expand g (settle p), CandWF g source c := by
        intro c hc
        rcases List.mem_append.1 hc with hh | hh
        · exact h1 c (popMin_rest_mem hpop c hh)
        · exact expand_wf hq c hh
      by_cases ht : (settle p).node = target
      · have h2' : ∀ r ∈ paths ++ [settle p], PoppedWF g source r ∧ r.node = target := by
          intro r hr
          rcases List.mem_append.1 hr with hh | hh
          · exact h2 r hh
          · simp only [List.mem_singleton] at hh
            subst hh
            exact ⟨hq, ht⟩
        by_cases hn : n ≤ paths.length + 1
        · rw [searchLoop_step_emit_stop g target n f heap heap' paths p hpop ht hn]
          exact h2'
        · rw [searchLoop_step_emit_go g target n f heap heap' paths p hpop ht hn]
          exact ih (heap' ++ expand g (settle p)) (paths ++ [settle p]) h1' h2'
      · rw [searchLoop_step_pass g target n f heap heap' paths p hpop ht]
        exact ih (heap' ++ expand g (settle p)) paths h1' h2

/-! The claims. -/

/-- Claim C1, counterexample: the claim predicts that `FlatToMinor`
applied to state (index 0, kind "A" = Minor) shifts the index by +4,
giving (index 4, kind Major); the code gives (index 8, kind Major),
i.e. it shifts by −4 from Minor. -/
theorem C1_counterexample :
    make_transition (scale 0 ScaleKind.Minor) ScaleTransition.FlatToMinor ≠
      scale 4 ScaleKind.Major := by decide

/-- Claim C1, amended: `FlatToMinor` swaps the kind and shifts the index
by −4 when the originating kind displays as "A" (Minor) and by +4 when it
displays as "B" (Major), with index arithmetic modulo 12 in the
normalized-nonnegative-remainder convention. -/
theorem C1_flat_to_minor_amended (s : Scale) :
    (make_transition s ScaleTransition.FlatToMinor).kind = s.kind.swap ∧
    ((make_transition s ScaleTransition.FlatToMinor).index : Int) =
      ((((s.index : Int) + (if s.kind.display = "A" then -4 else 4)).tmod 12) + 12).tmod 12 := by
  obtain ⟨i, k⟩ := s
  cases k with
  | Minor =>
    refine ⟨rfl, ?_⟩
    show ((mod_cyclic ((i : Int) + -4) 12).toNat : Int) = _
    rw [Int.toNat_of_nonneg (mod_cyclic_nonneg_lt ((i : Int) + -4)).1]
    norm_num [ScaleKind.display]
    rfl
  | Major =>
    refine ⟨rfl, ?_⟩
    show ((mod_cyclic ((i : Int) + 4) 12).toNat : Int) = _
    rw [Int.toNat_of_nonneg (mod_cyclic_nonneg_lt ((i : Int) + 4)).1]
    norm_num [ScaleKind.display]
    rfl

/-- Claim C1, witness for the amended theorem's instantiation at a
concrete state: from (index 0, Minor) the code gives (index 8, Major). -/
theorem C1_amended_witness :
    (make_transition (scale 0 ScaleKind.Minor) ScaleTransition.FlatToMinor).kind =
      (ScaleKind.Minor).swap ∧
    ((make_transition (scale 0 ScaleKind.Minor) ScaleTransition.FlatToMinor).index : Int) =
      ((((0 : Int) + (if (ScaleKind.Minor).display = "A" then -4 else 4)).tmod 12) + 12).tmod 12 :=
  C1_flat_to_minor_amended (scale 0 ScaleKind.Minor)

/-- Claim C2, counterexample: requesting `n = 0` does not yield an empty
result sequence; with source = target the very first iteration emits the
seed path and only then checks the count. -/
theorem C2_counterexample :
    multi_path_dijkstra build_graph 0 0 0 1 ≠ [] := by decide

/-- Claim C2, amended: `n = 0` behaves exactly like `n = 1` (the
`paths.len() >= n` check runs only after an emission, when the count is
at least 1), so the search still runs, expands the frontier, and returns
the first arrival at the target rather than an empty sequence. -/
theorem C2_zero_behaves_as_one (g : Graph) (source target fuel : Nat) :
    multi_path_dijkstra g source target 0 fuel =
      multi_path_dijkstra g source target 1 fuel :=
  searchLoop_zero_one g target fuel _ _

/-- Claim C3: the sequence of paths returned by `multi_path_dijkstra`
has non-decreasing costs: whenever path `i` precedes path `j` in the
returned sequence, `cost i ≤ cost j`. -/
theorem C3_costs_nondecreasing (g : Graph) (source target : Nat) (n fuel : Nat) :
    (multi_path_dijkstra g source target n fuel).Pairwise
      (fun a b => a.cost ≤ b.cost) :=
  searchLoop_sorted g target n fuel _ [] (by simp) (by simp)

/-- Claim C4: when a candidate at the target is popped and emitting it
does not reach `n` results, the candidate is still expanded — the loop
continues with the emitted path appended and, for every outgoing edge of
the target, a successor candidate in the frontier with cost parent+1,
the edge's destination as current node, the edge's label pending, and
the parent's histories cloned. -/
theorem C4_target_not_absorbing (g : Graph) (target n fuel : Nat)
    (heap heap' paths : List Path) (p : Path)
    (hpop : popMin heap = some (p, heap'))
    (ht : (settle p).node = target)
    (hn : paths.length + 1 < n) :
    searchLoop g target n (fuel + 1) heap paths =
      searchLoop g target n fuel (heap' ++ expand g (settle p)) (paths ++ [settle p]) ∧
    ∀ e ∈ edgesFrom g target,
      ({ cost := p.cost + 1, node := e.1, transition := some e.2,
         path := (settle p).path, transition_path := (settle p).transition_path } : Path)
        ∈ heap' ++ expand g (settle p) := by
  have hn' : ¬n ≤ paths.length + 1 := by omega
  refine ⟨searchLoop_step_emit_go g target n fuel heap heap' paths p hpop ht hn', ?_⟩
  intro e he
  refine List.mem_append_right _ ?_
  unfold expand
  rw [ht]
  exact List.mem_map_of_mem _ he

/-- Claim C4, witness: the seed at node 0 popped with target 0 and
`n = 2`. -/
theorem C4_witness :
    popMin [seedPath 0] = some (seedPath 0, []) ∧
    (settle (seedPath 0)).node = 0 ∧
    ([] : List Path).length + 1 < 2 ∧
    (searchLoop build_graph 0 2 1 [seedPath 0] [] =
      searchLoop build_graph 0 2 0
        ([] ++ expand build_graph (settle (seedPath 0)))
        ([] ++ [settle (seedPath 0)])) := by
  refine ⟨rfl, rfl, by decide, ?_⟩
  exact (C4_target_not_absorbing build_graph 0 2 0 [seedPath 0] [] []
    (seedPath 0) rfl rfl (by decide)).1

/-- Claim C5: every returned path is well-formed — its node sequence
begins with the source and ends with the target, its label sequence is
one shorter than its node sequence, that label count equals the cost,
and consecutive nodes are joined by a graph edge carrying the recorded
label. -/
theorem C5_paths_wellformed (g : Graph) (source target : Nat) (n fuel : Nat) (p : Path)
    (hp : p ∈ multi_path_dijkstra g source target n fuel) :
    p.path.head? = some source ∧
    p.path.getLast? = some target ∧
    p.path.length = p.transition_path.length + 1 ∧
    p.cost = (p.transition_path.length : Int) ∧
    ∀ i, i < p.transition_path.length →
      (p.path.getD i 0, p.path.getD (i + 1) 0,
        p.transition_path.getD i ScaleTransition.Vertical) ∈ g.edges := by
  have hseed : ∀ c ∈ [seedPath source], CandWF g source c := by
    intro c hc
    simp only [List.mem_singleton] at hc
    subst hc
    exact Or.inl ⟨rfl, rfl, rfl, rfl, rfl⟩
  have h := searchLoop_wf g source target n fuel _ [] hseed (by simp) p hp
  obtain ⟨⟨rest, hpath, hlast, hchain, hcost⟩, hnode⟩ := h
  refine ⟨?_, ?_, ?_, hcost, ?_⟩
  · rw [hpath]
    rfl
  · rw [hlast, hnode]
  · rw [hpath]
    simp [isChain_length g rest p.transition_path source hchain]
  · intro i hi
    have := isChain_getD g rest p.transition_path source hchain i hi
    rw [hpath]
    exact this

/-- Claim C5, witness: the zero-length path returned for
source = target = 0 on the built graph. -/
theorem C5_witness :
    (({ cost := 0, node := 0, transition := none, path := [0], transition_path := [] } : Path)
        ∈ multi_path_dijkstra build_graph 0 0 1 1) ∧
    ([0] : List Nat).head? = some 0 ∧
    ([0] : List Nat).getLast? = some 0 ∧
    ([0] : List Nat).length = ([] : List ScaleTransition).length + 1 ∧
    (0 : Int) = (([] : List ScaleTransition).length : Int) := by
  have hmem : ({ cost := 0, node := 0, transition := none, path := [0], transition_path := [] } : Path) ∈ multi_path_dijkstra build_graph 0 0 1 1 := by decide
  have h := C5_paths_wellformed build_graph 0 0 1 1 _ hmem
  exact ⟨hmem, h.1, h.2.1, h.2.2.1, h.2.2.2.1⟩

/-- Claim C6: with source = target = s and `n ≥ 1` (and at least one
loop iteration of fuel), the first result is the zero-cost path with
node history `[s]` and no transitions. -/
theorem C6_source_eq_target_first (g : Graph) (s : Nat) (n fuel : Nat)
    (hn : 1 ≤ n) (hf : 1 ≤ fuel) :
    (multi_path_dijkstra g s s n fuel).head? =
      some { cost := 0, node := s, transition := none, path := [s], transition_path := [] } := by
  obtain ⟨f, rfl⟩ : ∃ f, fuel = f + 1 := ⟨fuel - 1, by omega⟩
  show (searchLoop g s n (f + 1) [seedPath s] []).head? = _
  have hpop : popMin [seedPath s] = some (seedPath s, []) := rfl
  have hsettle : settle (seedPath s) =
      { cost := 0, node := s, transition := none, path := [s], transition_path := [] } := by
    simp [settle, seedPath]
  have ht : (settle (seedPath s)).node = s := rfl
  by_cases hn1 : n ≤ ([] : List Path).length + 1
  · rw [searchLoop_step_emit_stop g s n f _ _ _ _ hpop ht hn1]
    simp [hsettle]
  · rw [searchLoop_step_emit_go g s n f _ _ _ _ hpop ht hn1]
    obtain ⟨rest, hrest⟩ := searchLoop_acc g s n f
      ([] ++ expand g (settle (seedPath s))) ([] ++ [settle (seedPath s)])
    rw [hrest, hsettle]
    simp

/-- Claim C6, witness: source = target = 5 on the built graph with
`n = 1` and fuel 1. -/
theorem C6_witness :
    (1 : Nat) ≤ 1 ∧
    (multi_path_dijkstra build_graph 5 5 1 1).head? =
      some { cost := 0, node := 5, transition := none, path := [5], transition_path := [] } :=
  ⟨le_refl 1, C6_source_eq_target_first build_graph 5 1 1 (le_refl 1) (le_refl 1)⟩

/-- Claim C7: the graph built in `main` from the 24-state enumeration and
the 10-rule catalog has exactly 24 nodes, exactly 240 directed edges, and
every node has out-degree exactly 10. -/
theorem C7_graph_size :
    build_graph.nodes.length = 24 ∧
    build_graph.edges.length = 240 ∧
    ((List.range 24).all fun i => outDegree build_graph i == 10) = true :=
  ⟨by decide, by decide, by decide⟩

/-- Claim C8: graph construction is total — for every state and rule the
guarded match takes a defined branch (the `unreachable!()` arm, kept as
`none` in `make_transitionChecked`, is never reached), applying any
catalog rule to any of the 24 states lands back in the 24 states, and the
fully checked edge-construction pipeline (every `unwrap` kept fallible)
succeeds and produces exactly the built graph's edges. -/
theorem C8_construction_total :
    (∀ s t, make_transitionChecked s t = some (make_transition s t)) ∧
    (make_nodes.all fun s => possible_transitions.all fun t =>
      make_nodes.contains (make_transition s t)) = true ∧
    build_edges_checked = some build_graph.edges := by
  refine ⟨?_, by decide, by decide⟩
  intro s t
  obtain ⟨i, k⟩ := s
  cases k <;> cases t <;> rfl

/-- Claim C9: `change_index` keeps the kind, lands in `[0, 12)`, and
computes the normalized-nonnegative-remainder
`((n mod 12) + 12) mod 12` (with Rust's truncated `%`), so negative
shifts wrap correctly. -/
theorem C9_shift (s : Scale) (k : Int) :
    (s.change_index k).kind = s.kind ∧
    (s.change_index k).index < 12 ∧
    ((s.change_index k).index : Int) =
      ((((s.index : Int) + k).tmod 12) + 12).tmod 12 := by
  obtain ⟨hge, hlt⟩ := mod_cyclic_nonneg_lt ((s.index : Int) + k)
  refine ⟨rfl, ?_, ?_⟩
  · show (mod_cyclic ((s.index : Int) + k) 12).toNat < 12
    omega
  · show ((mod_cyclic ((s.index : Int) + k) 12).toNat : Int) = _
    rw [Int.toNat_of_nonneg hge]
    unfold mod_cyclic
    norm_num

/-- Claim C10: every rule of the catalog has an inverse in the catalog on
the 24-state space — the four kind-swapping rules are involutions, each
`ChangeIndex k` of the catalog is undone by `ChangeIndex (-k)` which is
also in the catalog, and consequently every edge of the built graph has a
reverse edge. -/
theorem C10_catalog_inverses :
    (make_nodes.all fun s =>
      [ScaleTransition.Vertical, ScaleTransition.Diagonal, ScaleTransition.MajorToMinor,
       ScaleTransition.FlatToMinor].all fun t =>
        make_transition (make_transition s t) t == s) = true ∧
    ([(1 : Int), 2, 7, -1, -2, -7].all fun k =>
      possible_transitions.contains (ScaleTransition.ChangeIndex (-k)) &&
      make_nodes.all fun s =>
        make_transition (make_transition s (ScaleTransition.ChangeIndex k))
          (ScaleTransition.ChangeIndex (-k)) == s) = true ∧
    (build_graph.edges.all fun e =>
      build_graph.edges.any fun f => f.1 == e.2.1 && f.2.1 == e.1) = true :=
  ⟨by decide, by decide, by decide⟩

end Camelol
